import Mathlib

/-!
Verification of the ruc-dnit ingestion pipeline and lookup layer.

The Python source (src/downloader.py, src/api.py) is shallowly embedded:
file contents are lists of lines (strings without the trailing newline),
the SQLite store is a list of rows in insertion order, and the effectful
steps are modelled as pure functions on an explicit state record.
Library string operations of Python (strip, split, join, replace, upper,
lower, in) are modelled by executable character-list functions below.
-/

namespace RucDnit

/-- Whitespace test; models the character class removed by Python str.strip. -/
def isWS (c : Char) : Bool := c.isWhitespace

/-- Strip whitespace from both ends of a character list. -/
def stripChars (l : List Char) : List Char :=
  ((l.dropWhile isWS).reverse.dropWhile isWS).reverse

/-- Model of Python str.strip with no arguments. -/
def pyStrip (s : String) : String := ⟨stripChars s.data⟩

/-- Split a character list on a separator character; models Python
str.split with a one-character separator (so it never returns an empty
list, and an empty input yields one empty field). -/
def splitOnChar (sep : Char) : List Char → List (List Char)
  | [] => [[]]
  | c :: cs =>
    if c = sep then [] :: splitOnChar sep cs
    else
      match splitOnChar sep cs with
      | [] => [[c]]
      | r :: rs => (c :: r) :: rs

/-- Model of Python line.split with separator the pipe character. -/
def pySplit (s : String) : List String := (splitOnChar '|' s.data).map (fun l => ⟨l⟩)

/-- Join character lists with a separator character; models str.join. -/
def joinChars (sep : Char) : List (List Char) → List Char
  | [] => []
  | [x] => x
  | x :: xs => x ++ sep :: joinChars sep xs

/-- Model of joining fields with the pipe character. -/
def joinPipe (parts : List String) : String := ⟨joinChars '|' (parts.map (fun s => s.data))⟩

/-- Number of pipe-separated fields of a line: len(line.split(sep)). -/
def numFields (s : String) : Nat := (splitOnChar '|' s.data).length

def lowerChars (l : List Char) : List Char := l.map Char.toLower

def lowerStr (s : String) : String := ⟨lowerChars s.data⟩

/-- Model of str.replace of the pipe character by a backslash and a pipe,
used to escape quarantined content. -/
def escPipe (s : String) : String :=
  ⟨s.data.foldr (fun c acc => if c = '|' then '\\' :: '|' :: acc else c :: acc) []⟩

/-- First index at which pat occurs as a prefix of a tail of l. -/
def findSub (l pat : List Char) : Option Nat :=
  (List.range (l.length + 1)).find? (fun i => pat.isPrefixOf (l.drop i))

/-- Model of the Python membership test "CANCELADO" in line.upper(). -/
def containsCancelado (s : String) : Bool :=
  (findSub (s.data.map Char.toUpper) "CANCELADO".data).isSome

/-! ### URL handling (downloader.py: _is_valid_url, find_zip_urls,
_get_filename_from_url).  urlparse and urljoin are external library
functions; they are modelled here for the common case of http(s) URLs:
the scheme is the text before the first "://", the netloc runs to the
next slash, the path is the rest, and query or fragment parts are not
separated. -/

structure UrlParts where
  scheme : String
  netloc : String
  path : String
deriving DecidableEq, Repr

/-- Model of urllib.parse.urlparse restricted to the fields the source
reads (scheme, netloc, path). -/
def parseUrl (url : String) : UrlParts :=
  match findSub url.data "://".data with
  | some i =>
    { scheme := ⟨url.data.take i⟩
      netloc := ⟨(url.data.drop (i + 3)).takeWhile (fun c => c ≠ '/')⟩
      path := ⟨(url.data.drop (i + 3)).dropWhile (fun c => c ≠ '/')⟩ }
  | none => { scheme := "", netloc := "", path := url }

/-- ZipDownloader._is_valid_url: scheme and netloc non-empty and the
lowercased scheme is http or https. -/
def is_valid_url (url : String) : Bool :=
  let u := parseUrl url
  !u.scheme.data.isEmpty && !u.netloc.data.isEmpty &&
    (lowerStr u.scheme == "http" || lowerStr u.scheme == "https")

/-- Directory part of a path: up to and including the last slash, or the
root when the path has no slash.  Used by the urljoin model. -/
def dirOf (p : String) : String :=
  if p.data.contains '/' then ⟨(p.data.reverse.dropWhile (fun c => c ≠ '/')).reverse⟩
  else "/"

/-- Model of urllib.parse.urljoin for the cases exercised by the source:
an absolute reference is returned as is, a scheme- or root-relative
reference is attached to the base scheme or authority, and a relative
reference replaces the last path segment of the base. -/
def urljoin (base url : String) : String :=
  if url.data.isEmpty then base
  else if (findSub url.data "://".data).isSome then url
  else if url.data.take 2 = ['/', '/'] then ⟨(parseUrl base).scheme.data ++ ':' :: url.data⟩
  else if url.data.take 1 = ['/'] then
    ⟨(parseUrl base).scheme.data ++ "://".data ++ (parseUrl base).netloc.data ++ url.data⟩
  else
    ⟨(parseUrl base).scheme.data ++ "://".data ++ (parseUrl base).netloc.data
      ++ (dirOf (parseUrl base).path).data ++ url.data⟩

/-- The hyperlink filter of find_zip_urls: the lowercased target ends
with ".zip" or contains ".zip/". -/
def isZipHref (href : String) : Bool :=
  (".zip".data.isSuffixOf (lowerChars href.data))
    || (findSub (lowerChars href.data) ".zip/".data).isSome

/-- ZipDownloader.find_zip_urls, with the fetched page abstracted to the
ordered list of hyperlink targets it contains.  An invalid page URL (and
likewise a network failure, not modelled) yields the empty list. -/
def find_zip_urls (pageUrl : String) (hrefs : List String) : List String :=
  if is_valid_url pageUrl then
    hrefs.filterMap (fun href =>
      if isZipHref href then
        let full := urljoin pageUrl href
        if is_valid_url full then some full else none
      else none)
  else []

/-! ### Filename derivation (_get_filename_from_url).  The regex search
for the pattern of one or more non-slash characters followed by ".zip"
(case insensitive) returns the leftmost match, extended greedily: that
is the first slash-free segment of the URL containing ".zip" at offset
at least one, truncated after the last ".zip" occurrence in it. -/

def zipToken : List Char := ['.', 'z', 'i', 'p']

/-- Case-insensitive test for ".zip" at position k of a segment. -/
def matchAt (seg : List Char) (k : Nat) : Bool :=
  ((seg.drop k).take 4).map Char.toLower = zipToken

/-- Regex match within one slash-free segment: the segment matches when
".zip" occurs at some offset of at least one, and the greedy match runs
to the end of the last occurrence. -/
def segMatch (seg : List Char) : Option String :=
  let occs := (List.range seg.length).filter (fun k => matchAt seg k)
  match (occs.filter (fun k => 1 ≤ k)).getLast? with
  | some k => some ⟨seg.take (k + 4)⟩
  | none => none

/-- Model of re.search of the pattern for a name ending in ".zip" over
the whole URL text. -/
def zipSearch (url : String) : Option String :=
  (splitOnChar '/' url.data).findSome? segMatch

/-- Model of Path(p).name: the last path component that is neither empty
nor the current-directory dot. -/
def pathName (p : String) : String :=
  match ((splitOnChar '/' p.data).filter (fun c => !c.isEmpty && c ≠ ['.'])).getLast? with
  | some c => ⟨c⟩
  | none => ""

/-- ZipDownloader._get_filename_from_url: first the regex search over the
URL text; otherwise the final path segment with ".zip" appended when
absent; the generic fallback name guards an empty result. -/
def get_filename_from_url (url : String) : String :=
  match zipSearch url with
  | some m => m
  | none =>
    let filename := pathName (parseUrl url).path
    let filename := if ".zip".data.isSuffixOf filename.data then filename
                    else ⟨filename.data ++ ".zip".data⟩
    if !filename.data.isEmpty then filename else "downloaded_file.zip"

/-! ### Archive extraction (extract_zip).  The filesystem effects are
abstracted: the archive is a list of entry names plus an optional error
(a corrupt archive raising BadZipFile, or any other extraction error),
and the outcome records the returned Bool, whether the archive file is
still present, and the entries extracted. -/

inductive ZipError where
  | badZip : ZipError
  | other : ZipError
deriving DecidableEq, Repr

structure ExtractOutcome where
  ok : Bool
  archivePresent : Bool
  extracted : List String
deriving DecidableEq, Repr

/-- ZipDownloader.extract_zip: on success all entries are extracted and
then the archive is unlinked; on any error the function returns False
and the archive file is not removed. -/
def extract_zip (entries : List String) (err : Option ZipError) : ExtractOutcome :=
  match err with
  | some _ => { ok := false, archivePresent := true, extracted := [] }
  | none => { ok := true, archivePresent := false, extracted := entries }

/-! ### Record validation (_validate_pipe_file). -/

/-- The list comprehension reading the file: strip every line and keep
the non-empty results. -/
def cleanedLines (raw : List String) : List String :=
  (raw.map pyStrip).filter (fun s => !s.data.isEmpty)

/-- The diagnostic reason attached to a quarantined line. -/
def motivo (numCols : Nat) (line : String) : String :=
  let base := "Tiene " ++ toString (numFields line) ++ " columna(s) pero se esperaban "
      ++ toString numCols
  if containsCancelado line then base ++ " (contiene CANCELADO)" else base

/-- The error-collection loop: data lines are enumerated from 2 and a
line whose field count differs from the header is recorded with its
line number, content and reason. -/
def collectErrors (numCols : Nat) (rest : List String) : List (Nat × String × String) :=
  (List.enumFrom 2 rest).filterMap (fun q =>
    if numFields q.2 ≠ numCols then some (q.1, q.2, motivo numCols q.2) else none)

/-- One row of the quarantine file error.csv. -/
def qLine (e : Nat × String × String) : String :=
  toString e.1 ++ "|" ++ escPipe e.2.1 ++ "|" ++ e.2.2

def quarantineHeader : String := "numero_linea|contenido_linea|motivo_error"

structure ValidateOutcome where
  ok : Bool
  outLines : List String
  quarantine : Option (List String)
deriving DecidableEq, Repr

/-- ZipDownloader._validate_pipe_file on the raw lines of the dataset
file.  outLines is the file content after the call (the input when
nothing is rewritten) and quarantine the content of error.csv when it is
written.  The source deletes the offending indices in descending sorted
order; as they are collected in ascending order, that order is their
reversal. -/
def validate_pipe_file (raw : List String) : ValidateOutcome :=
  let lines := cleanedLines raw
  if lines.length < 2 then { ok := false, outLines := raw, quarantine := none }
  else
    match lines with
    | [] => { ok := false, outLines := raw, quarantine := none }
    | header :: rest =>
      let numCols := numFields header
      let errs := collectErrors numCols rest
      if errs.isEmpty then { ok := true, outLines := raw, quarantine := none }
      else
        let newLines := ((errs.map (fun e => e.1)).reverse).foldl
          (fun ls i => ls.eraseIdx (i - 1)) (header :: rest)
        { ok := true, outLines := newLines
          quarantine := some (quarantineHeader :: errs.map qLine) }

/-! ### Record unification (unify_txt_files and _write_batch_to_csv). -/

/-- The per-line step of the merge loop: strip, skip empty lines, skip
the first line of the file, split on the pipe and strip each field. -/
def lineRow? (q : Nat × String) : Option (List String) :=
  let s := pyStrip q.2
  if s.data.isEmpty then none
  else if q.1 = 0 then none
  else
    let parts := (pySplit s).map pyStrip
    if parts.length > 0 then some parts else none

/-- The merge loop over the enumerated lines of one file, carrying the
current batch and the rows already flushed to the temporary file; the
batch is flushed when it reaches batch_size and at end of file. -/
def unifyGo (bs : Nat) : List (Nat × String) → List (List String) → List (List String)
    → List (List String)
  | [], batch, out => out ++ batch
  | q :: rest, batch, out =>
    match lineRow? q with
    | none => unifyGo bs rest batch out
    | some parts =>
      let batch1 := batch ++ [parts]
      if bs ≤ batch1.length then unifyGo bs rest [] (out ++ batch1)
      else unifyGo bs rest batch1 out

/-- Rows contributed by one flat file. -/
def processFile (bs : Nat) (f : List String) : List (List String) :=
  unifyGo bs f.enum [] []

/-- All rows written to the temporary file, in file order. -/
def allRows (bs : Nat) (files : List (List String)) : List (List String) :=
  files.foldr (fun f acc => processFile bs f ++ acc) []

/-- Specification-shaped description of the rows of one file: one row per
non-header, non-empty line, split on the pipe with fields trimmed. -/
def fileDataRows (f : List String) : List (List String) :=
  f.enum.filterMap (fun q =>
    if q.1 ≠ 0 ∧ !(pyStrip q.2).data.isEmpty
    then some ((pySplit (pyStrip q.2)).map pyStrip) else none)

def defaultHeaders : List String := ["ruc", "razon_social", "dv", "ruc_anterior", "estado"]

/-- Header resolution: first file whose first line strips non-empty
provides the header fields; otherwise the hardcoded fallback. -/
def resolveHeaders (files : List (List String)) : List String :=
  match files.findSome? (fun f =>
    match f.head? with
    | none => none
    | some l =>
      let s := pyStrip l
      if s.data.isEmpty then none else some ((pySplit s).map pyStrip)) with
  | some hs => hs
  | none => defaultHeaders

/-- Content of the unified dataset file: the joined header line followed
by the joined rows. -/
def unifiedLines (bs : Nat) (files : List (List String)) : List String :=
  joinPipe (resolveHeaders files) :: (allRows bs files).map joinPipe

/-! ### Store loading (_create_sqlite_db). -/

structure DbRow where
  ruc : String
  razon_social : String
  dv : String
  ruc_anterior : String
  estado : String
deriving DecidableEq, Repr

/-- The positional mapping of split fields into the five columns, with a
missing trailing field rendered as the empty string. -/
def rowOfParts (parts : List String) : DbRow :=
  { ruc := parts.getD 0 ""
    razon_social := parts.getD 1 ""
    dv := parts.getD 2 ""
    ruc_anterior := parts.getD 3 ""
    estado := parts.getD 4 "" }

/-- The five text fields of a store row, in column order; reading a row
back by position. -/
def rowFields (r : DbRow) : List String :=
  [r.ruc, r.razon_social, r.dv, r.ruc_anterior, r.estado]

/-- The per-line step of the load loop: strip, skip empty lines, split
on the pipe, strip fields, map by position. -/
def lineToRow? (line : String) : Option DbRow :=
  let s := pyStrip line
  if s.data.isEmpty then none
  else some (rowOfParts ((pySplit s).map pyStrip))

/-- The insert loop, batching rows and flushing each full batch with
executemany; the final partial batch is flushed after the loop.  The
periodic commit does not change the inserted content and is not
modelled. -/
def dbGo (bs : Nat) : List String → List DbRow → List DbRow → List DbRow
  | [], batch, db => db ++ batch
  | l :: rest, batch, db =>
    match lineToRow? l with
    | none => dbGo bs rest batch db
    | some r =>
      let batch1 := batch ++ [r]
      if bs ≤ batch1.length then dbGo bs rest [] (db ++ batch1)
      else dbGo bs rest batch1 db

/-- ZipDownloader._create_sqlite_db: the header line is consumed by
readline, every further non-empty line is inserted; the result is the
table content in insertion order (the autoincrement key preserves it). -/
def create_sqlite_db (bs : Nat) (fileLines : List String) : List DbRow :=
  match fileLines with
  | [] => []
  | _ :: rest => dbGo bs rest [] []

/-! ### The merge driver (unify_txt_files).  Filesystem state is the
final dataset file, the store file and the presence of the temporary
file. -/

structure PipeState where
  finalDataset : Option (List String)
  store : Option (List DbRow)
  tempExists : Bool
deriving DecidableEq, Repr

/-- ZipDownloader.unify_txt_files: no flat files or zero collected rows
report failure without touching the final dataset or the store; otherwise
the temporary file is renamed onto the final path, validated in place,
and the store is rebuilt from the validated file with the default batch
size of _create_sqlite_db. -/
def unify_txt_files (bs : Nat) (files : List (List String)) (st : PipeState) :
    Bool × PipeState :=
  if files.isEmpty then (false, st)
  else
    let rows := allRows bs files
    if rows.length = 0 then (false, { st with tempExists := false })
    else
      let dataset := unifiedLines bs files
      let v := validate_pipe_file dataset
      if v.ok then
        (true, { finalDataset := some v.outLines
                 store := some (create_sqlite_db 1000 v.outLines)
                 tempExists := false })
      else
        (false, { finalDataset := some v.outLines
                  store := st.store
                  tempExists := false })

/-! ### Lookup API (api.py). -/

structure ApiRow where
  ruc : String
  razon_social : String
  dv : String
  estado : String
deriving DecidableEq, Repr

structure FormattedRow where
  ruc : String
  razon_social : String
  estado : String
deriving DecidableEq, Repr

/-- api.search_ruc: exact match on the ruc column, LIMIT 1. -/
def search_ruc (db : List ApiRow) (q : String) : Option ApiRow :=
  db.find? (fun r => r.ruc == q)

/-- The LIKE pattern match of search_razon_social: substring containment,
case-insensitive as SQLite LIKE is for ASCII. -/
def likeMatch (q : String) (r : ApiRow) : Bool :=
  (findSub (lowerChars r.razon_social.data) (lowerChars q.data)).isSome

/-- api.search_razon_social: LIKE filter with a hard LIMIT 100 in the SQL
statement, independent of any caller parameter. -/
def search_razon_social (db : List ApiRow) (q : String) : List ApiRow :=
  (db.filter (likeMatch q)).take 100

/-- api.format_response: the ruc is re-joined with the stripped check
digit when the latter is non-empty, and the text fields are trimmed. -/
def format_response (r : ApiRow) : FormattedRow :=
  let dv := pyStrip r.dv
  { ruc := if !dv.data.isEmpty then r.ruc ++ "-" ++ dv else r.ruc
    razon_social := pyStrip r.razon_social
    estado := pyStrip r.estado }

/-- Model of Python str.isdigit restricted to ASCII digits. -/
def pyIsDigitStr (s : String) : Bool :=
  !s.data.isEmpty && s.data.all (fun c => c.isDigit)

/-- api.is_valid_ruc_format: digits only and a length between 1 and 10. -/
def is_valid_ruc_format (ruc : String) : Bool :=
  pyIsDigitStr ruc && (decide (1 ≤ ruc.data.length) && decide (ruc.data.length ≤ 10))

inductive SearchResult where
  | badRequest : SearchResult
  | single : FormattedRow → SearchResult
  | many : List FormattedRow → Nat → SearchResult
  | notFound : SearchResult
deriving DecidableEq, Repr

/-- The /buscar endpoint: reject a malformed all-digit query, try the
exact ruc lookup, else run the substring search, 404 on no results, and
otherwise apply the caller limit and format. -/
def search (db : List ApiRow) (query : String) (limit : Nat) : SearchResult :=
  if pyIsDigitStr query && !is_valid_ruc_format query then .badRequest
  else
    match search_ruc db query with
    | some r => .single (format_response r)
    | none =>
      let results := search_razon_social db query
      if results.isEmpty then .notFound
      else .many ((results.take limit).map format_response)
        ((results.take limit).map format_response).length

/-- Number of formatted results carried by an endpoint response. -/
def resultCount : SearchResult → Nat
  | .single _ => 1
  | .many rs _ => rs.length
  | _ => 0

/-! ## Helper lemmas: character-list utilities -/

theorem splitOnChar_ne_nil (sep : Char) (l : List Char) : splitOnChar sep l ≠ [] := by
  induction l with
  | nil => simp [splitOnChar]
  | cons c cs ih =>
    simp only [splitOnChar]
    split
    · simp
    · match h : splitOnChar sep cs with
      | [] => simp
      | r :: rs => simp

theorem joinChars_splitOnChar (sep : Char) (l : List Char) :
    joinChars sep (splitOnChar sep l) = l := by
  induction l with
  | nil => rfl
  | cons c cs ih =>
    simp only [splitOnChar]
    split
    · rename_i hc
      match h : splitOnChar sep cs with
      | [] => exact absurd h (splitOnChar_ne_nil sep cs)
      | r :: rs =>
        rw [h] at ih
        simp [joinChars, ih, hc]
    · match h : splitOnChar sep cs with
      | [] => exact absurd h (splitOnChar_ne_nil sep cs)
      | [r] =>
        rw [h] at ih
        simp only [joinChars] at ih ⊢
        simp [ih]
      | r :: r2 :: rs =>
        rw [h] at ih
        simp only [joinChars] at ih ⊢
        simp [ih]

theorem not_mem_of_mem_splitOnChar (sep : Char) (l : List Char) :
    ∀ r ∈ splitOnChar sep l, sep ∉ r := by
  induction l with
  | nil => simp [splitOnChar]
  | cons c cs ih =>
    intro r hr
    simp only [splitOnChar] at hr
    split at hr
    · rcases List.mem_cons.mp hr with h | h
      · subst h; simp
      · exact ih r h
    · rename_i hc
      match h : splitOnChar sep cs with
      | [] => exact absurd h (splitOnChar_ne_nil sep cs)
      | r0 :: rs =>
        rw [h] at hr
        rcases List.mem_cons.mp hr with h1 | h1
        · subst h1
          intro hmem
          rcases List.mem_cons.mp hmem with h2 | h2
          · exact hc h2.symm
          · exact ih r0 (h ▸ List.mem_cons_self r0 rs) h2
        · exact ih r (h ▸ List.mem_cons_of_mem r0 h1)

theorem mem_joinChars_of_two (sep : Char) (x y : List Char) (t : List (List Char)) :
    sep ∈ joinChars sep (x :: y :: t) := by
  simp [joinChars]

theorem splitOnChar_singleton (sep : Char) (l r : List Char)
    (h : splitOnChar sep l = [r]) : r = l := by
  have := joinChars_splitOnChar sep l
  rw [h] at this
  simpa [joinChars] using this

/-! ## Helper lemmas: stripping -/

theorem mem_dropWhile_of_not {p : Char → Bool} {x : Char} (l : List Char)
    (hm : x ∈ l) (hp : p x = false) : x ∈ l.dropWhile p := by
  induction l with
  | nil => cases hm
  | cons a as ih =>
    rw [List.dropWhile_cons]
    split
    · rename_i ha
      rcases List.mem_cons.mp hm with h | h
      · subst h; rw [hp] at ha; cases ha
      · exact ih h
    · exact hm

theorem head?_dropWhile_false {p : Char → Bool} (l : List Char) :
    ∀ a, (l.dropWhile p).head? = some a → p a = false := by
  induction l with
  | nil => intro a h; cases h
  | cons c cs ih =>
    intro a h
    rw [List.dropWhile_cons] at h
    split at h
    · exact ih a h
    · rename_i hc
      simp only [List.head?_cons, Option.some.injEq] at h
      subst h
      simpa using hc

theorem dropWhile_eq_self_of_head {p : Char → Bool} (l : List Char)
    (h : ∀ a, l.head? = some a → p a = false) : l.dropWhile p = l := by
  cases l with
  | nil => rfl
  | cons c cs =>
    rw [List.dropWhile_cons]
    simp [h c rfl]

theorem dropWhile_idem {p : Char → Bool} (l : List Char) :
    (l.dropWhile p).dropWhile p = l.dropWhile p :=
  dropWhile_eq_self_of_head _ (head?_dropWhile_false l)

theorem exists_append_dropWhile {p : Char → Bool} (l : List Char) :
    ∃ t, l = t ++ l.dropWhile p := by
  induction l with
  | nil => exact ⟨[], rfl⟩
  | cons c cs ih =>
    rw [List.dropWhile_cons]
    split
    · obtain ⟨t, ht⟩ := ih
      exact ⟨c :: t, by simp [← ht]⟩
    · exact ⟨[], rfl⟩

theorem stripChars_idem (l : List Char) : stripChars (stripChars l) = stripChars l := by
  by_cases he : stripChars l = []
  · rw [he]; rfl
  · have hrev : (stripChars l).reverse = (l.dropWhile isWS).reverse.dropWhile isWS := by
      simp [stripChars]
    have hdrop_rev : (stripChars l).reverse.dropWhile isWS = (stripChars l).reverse := by
      rw [hrev]; exact dropWhile_idem _
    have hpre : ∃ t2, l.dropWhile isWS = stripChars l ++ t2 := by
      obtain ⟨t, ht⟩ := exists_append_dropWhile (p := isWS) ((l.dropWhile isWS).reverse)
      refine ⟨t.reverse, ?_⟩
      have := congrArg List.reverse ht
      simpa [stripChars] using this
    have hhead : (stripChars l).dropWhile isWS = stripChars l := by
      apply dropWhile_eq_self_of_head
      intro a ha
      obtain ⟨t2, ht2⟩ := hpre
      have hh : (l.dropWhile isWS).head? = some a := by
        rw [ht2]
        cases hs : stripChars l with
        | nil => exact absurd hs he
        | cons b bs =>
          rw [hs] at ha
          simp only [List.head?_cons, Option.some.injEq] at ha
          subst ha
          simp
      exact head?_dropWhile_false l a hh
    calc stripChars (stripChars l)
        = (((stripChars l).dropWhile isWS).reverse.dropWhile isWS).reverse := rfl
      _ = ((stripChars l).reverse.dropWhile isWS).reverse := by rw [hhead]
      _ = (stripChars l).reverse.reverse := by rw [hdrop_rev]
      _ = stripChars l := List.reverse_reverse _

theorem stripChars_ne_nil_of_mem {c : Char} (l : List Char)
    (hm : c ∈ l) (hw : isWS c = false) : stripChars l ≠ [] := by
  have h1 : c ∈ l.dropWhile isWS := mem_dropWhile_of_not l hm hw
  have h2 : c ∈ (l.dropWhile isWS).reverse := List.mem_reverse.mpr h1
  have h3 : c ∈ (l.dropWhile isWS).reverse.dropWhile isWS := mem_dropWhile_of_not _ h2 hw
  have h4 : c ∈ stripChars l := List.mem_reverse.mpr h3
  exact List.ne_nil_of_mem h4

theorem pyStrip_idem (s : String) : pyStrip (pyStrip s) = pyStrip s :=
  congrArg String.mk (stripChars_idem s.data)

theorem mem_cleanedLines {x : String} {raw : List String} (h : x ∈ cleanedLines raw) :
    pyStrip x = x ∧ !x.data.isEmpty := by
  unfold cleanedLines at h
  have h1 := List.mem_filter.mp h
  obtain ⟨y, _, hy⟩ := List.mem_map.mp h1.1
  refine ⟨?_, h1.2⟩
  rw [← hy]
  exact pyStrip_idem y

theorem cleanedLines_eq_self {ls : List String}
    (h : ∀ x ∈ ls, pyStrip x = x ∧ !x.data.isEmpty) : cleanedLines ls = ls := by
  have h1 : List.map pyStrip ls = ls := by
    induction ls with
    | nil => rfl
    | cons x xs ih =>
      simp only [List.map_cons]
      rw [(h x (List.mem_cons_self x xs)).1,
        ih (fun y hy => h y (List.mem_cons_of_mem x hy))]
  unfold cleanedLines
  rw [h1, List.filter_eq_self.mpr (fun x hx => (h x hx).2)]

/-! ## Helper lemmas: the validator -/

/-- Proof-side generalization of collectErrors to an arbitrary first line
number. -/
def collectFrom (numCols n : Nat) (rest : List String) : List (Nat × String × String) :=
  (List.enumFrom n rest).filterMap (fun q =>
    if numFields q.2 ≠ numCols then some (q.1, q.2, motivo numCols q.2) else none)

theorem collectErrors_eq_collectFrom (numCols : Nat) (rest : List String) :
    collectErrors numCols rest = collectFrom numCols 2 rest := rfl

theorem collectFrom_nil (numCols n : Nat) : collectFrom numCols n [] = [] := rfl

theorem collectFrom_cons (numCols n : Nat) (x : String) (xs : List String) :
    collectFrom numCols n (x :: xs) =
      (if numFields x ≠ numCols then [(n, x, motivo numCols x)] else [])
        ++ collectFrom numCols (n + 1) xs := by
  by_cases hx : numFields x = numCols
  · simp [collectFrom, List.enumFrom, List.filterMap_cons, hx]
  · simp [collectFrom, List.enumFrom, List.filterMap_cons, hx]

theorem mem_collectFrom {numCols n : Nat} {l : List String} {e : Nat × String × String}
    (h : e ∈ collectFrom numCols n l) :
    n ≤ e.1 ∧ l.get? (e.1 - n) = some e.2.1 ∧ numFields e.2.1 ≠ numCols
      ∧ e.2.2 = motivo numCols e.2.1 := by
  induction l generalizing n with
  | nil => cases h
  | cons x xs ih =>
    rw [collectFrom_cons] at h
    rcases List.mem_append.mp h with h1 | h1
    · split at h1
      · rename_i hx
        rcases List.mem_cons.mp h1 with h2 | h2
        · subst h2
          simpa using hx
        · cases h2
      · cases h1
    · obtain ⟨hn, hg, hej, hm⟩ := ih h1
      refine ⟨Nat.le_of_succ_le hn, ?_, hej, hm⟩
      have hd : e.1 - n = (e.1 - (n + 1)) + 1 := by omega
      rw [hd]
      simpa using hg

theorem collectFrom_of_get? {numCols n : Nat} {l : List String} {i : Nat} {x : String}
    (hg : l.get? i = some x) (hx : numFields x ≠ numCols) :
    (n + i, x, motivo numCols x) ∈ collectFrom numCols n l := by
  induction l generalizing n i with
  | nil => cases hg
  | cons y ys ih =>
    rw [collectFrom_cons]
    cases i with
    | zero =>
      simp only [List.get?] at hg
      injection hg with hg
      subst hg
      simp [hx]
    | succ j =>
      simp only [List.get?] at hg
      apply List.mem_append.mpr
      right
      have := ih (n := n + 1) hg
      have harith : n + (j + 1) = (n + 1) + j := by omega
      rw [harith]
      exact this

theorem collectFrom_pairwise (numCols n : Nat) (l : List String) :
    (collectFrom numCols n l).Pairwise (fun a b => a.1 < b.1) := by
  induction l generalizing n with
  | nil => exact List.Pairwise.nil
  | cons x xs ih =>
    rw [collectFrom_cons]
    split
    · simp only [List.singleton_append, List.pairwise_cons]
      refine ⟨?_, ih (n + 1)⟩
      intro b hb
      have := (mem_collectFrom hb).1
      omega
    · simpa using ih (n + 1)

theorem collectFrom_nodup (numCols n : Nat) (l : List String) :
    (collectFrom numCols n l).Nodup := by
  have := collectFrom_pairwise numCols n l
  exact this.imp (fun hab => by
    intro he
    subst he
    exact absurd hab (lt_irrefl _))

theorem collectFrom_nil_all {numCols n : Nat} {l : List String}
    (h : collectFrom numCols n l = []) : ∀ x ∈ l, numFields x = numCols := by
  intro x hx
  by_contra hne
  obtain ⟨i, hi⟩ := List.mem_iff_get?.mp hx
  have := collectFrom_of_get? (n := n) hi hne
  rw [h] at this
  cases this

/-- Proof-side list of the zero-padded positions of the mismatching
lines, again from an arbitrary first line number. -/
def mismatchIdx (numCols n : Nat) (l : List String) : List Nat :=
  (List.enumFrom n l).filterMap (fun q =>
    if numFields q.2 ≠ numCols then some q.1 else none)

theorem mismatchIdx_cons (numCols n : Nat) (x : String) (xs : List String) :
    mismatchIdx numCols n (x :: xs) =
      (if numFields x ≠ numCols then [n] else []) ++ mismatchIdx numCols (n + 1) xs := by
  by_cases hx : numFields x = numCols
  · simp [mismatchIdx, List.enumFrom, List.filterMap_cons, hx]
  · simp [mismatchIdx, List.enumFrom, List.filterMap_cons, hx]

theorem collectFrom_map_fst (numCols n : Nat) (l : List String) :
    (collectFrom numCols n l).map (fun e => e.1) = mismatchIdx numCols n l := by
  induction l generalizing n with
  | nil => rfl
  | cons x xs ih =>
    rw [collectFrom_cons, mismatchIdx_cons, List.map_append, ih]
    split <;> simp

theorem eraseIdx_append_cons {α : Type} (ctx : List α) (x : α) (t : List α) :
    (ctx ++ x :: t).eraseIdx ctx.length = ctx ++ t := by
  induction ctx with
  | nil => rfl
  | cons a as ih => simpa using ih

theorem foldr_eraseIdx_mismatch (numCols : Nat) (l : List String) :
    ∀ ctx : List String,
      (mismatchIdx numCols (ctx.length + 1) l).foldr (fun i ls => ls.eraseIdx (i - 1))
          (ctx ++ l)
        = ctx ++ l.filter (fun x => numFields x == numCols) := by
  induction l with
  | nil => intro ctx; simp [mismatchIdx, List.enumFrom]
  | cons x xs ih =>
    intro ctx
    have hctx : ctx ++ x :: xs = (ctx ++ [x]) ++ xs := by simp
    have hlen : (ctx ++ [x]).length + 1 = ctx.length + 1 + 1 := by simp
    have hinner :
        (mismatchIdx numCols (ctx.length + 1 + 1) xs).foldr (fun i ls => ls.eraseIdx (i - 1))
            (ctx ++ x :: xs)
          = ctx ++ x :: xs.filter (fun y => numFields y == numCols) := by
      rw [hctx, ← hlen, ih (ctx ++ [x])]
      simp
    rw [mismatchIdx_cons]
    split
    · rename_i hx
      rw [List.singleton_append, List.foldr_cons, hinner]
      have : ctx.length + 1 - 1 = ctx.length := by omega
      rw [this, eraseIdx_append_cons,
        List.filter_cons_of_neg (by simpa using hx)]
    · rename_i hx
      rw [List.nil_append, hinner,
        List.filter_cons_of_pos (by simpa using not_not.mp hx)]

/-! ## Helper lemmas: the merge and load loops -/

theorem unifyGo_eq (bs : Nat) (ls : List (Nat × String)) :
    ∀ batch out, unifyGo bs ls batch out = out ++ batch ++ ls.filterMap lineRow? := by
  induction ls with
  | nil => intro batch out; simp [unifyGo]
  | cons q rest ih =>
    intro batch out
    cases h : lineRow? q with
    | none => simp [unifyGo, h, ih]
    | some parts =>
      simp only [unifyGo, h]
      split
      · rw [ih]
        simp [List.filterMap_cons, h]
      · rw [ih]
        simp [List.filterMap_cons, h]

theorem processFile_eq (bs : Nat) (f : List String) :
    processFile bs f = f.enum.filterMap lineRow? := by
  unfold processFile
  rw [unifyGo_eq]
  simp

theorem allRows_cons (bs : Nat) (f : List String) (fs : List (List String)) :
    allRows bs (f :: fs) = processFile bs f ++ allRows bs fs := rfl

theorem lineRow?_eq (q : Nat × String) :
    lineRow? q = if q.1 ≠ 0 ∧ !(pyStrip q.2).data.isEmpty
      then some ((pySplit (pyStrip q.2)).map pyStrip) else none := by
  have hlen : 0 < ((pySplit (pyStrip q.2)).map pyStrip).length := by
    rw [List.length_map]
    unfold pySplit
    rw [List.length_map]
    exact List.length_pos.mpr (splitOnChar_ne_nil '|' (pyStrip q.2).data)
  have hne : pySplit (pyStrip q.2) ≠ [] := by
    unfold pySplit
    simp [splitOnChar_ne_nil]
  unfold lineRow?
  by_cases h1 : (pyStrip q.2).data.isEmpty <;> by_cases h2 : q.1 = 0 <;>
    simp [h1, h2, hlen, hne]

theorem fileDataRows_eq (f : List String) :
    f.enum.filterMap lineRow? = fileDataRows f := by
  unfold fileDataRows
  have : lineRow? = (fun q : Nat × String =>
      if q.1 ≠ 0 ∧ !(pyStrip q.2).data.isEmpty
      then some ((pySplit (pyStrip q.2)).map pyStrip) else none) :=
    funext lineRow?_eq
  rw [this]

theorem allRows_eq (bs : Nat) (files : List (List String)) :
    allRows bs files = files.foldr (fun f acc => fileDataRows f ++ acc) [] := by
  induction files with
  | nil => rfl
  | cons f fs ih => rw [allRows_cons, processFile_eq, fileDataRows_eq, ih, List.foldr_cons]

theorem mem_allRows {bs : Nat} {files : List (List String)} {r : List String}
    (h : r ∈ allRows bs files) : ∃ f ∈ files, r ∈ fileDataRows f := by
  induction files with
  | nil => cases h
  | cons f fs ih =>
    rw [allRows_cons, processFile_eq, fileDataRows_eq] at h
    rcases List.mem_append.mp h with h1 | h1
    · exact ⟨f, List.mem_cons_self f fs, h1⟩
    · obtain ⟨g, hg, hr⟩ := ih h1
      exact ⟨g, List.mem_cons_of_mem f hg, hr⟩

theorem length_filterMap_eq_countP {α β : Type} (g : α → Option β) (p : α → Bool)
    (h : ∀ a, (g a).isSome = p a) (l : List α) :
    (l.filterMap g).length = l.countP p := by
  induction l with
  | nil => rfl
  | cons a as ih =>
    cases hg : g a with
    | none =>
      have hp : p a = false := by rw [← h a, hg]; rfl
      simp [List.filterMap_cons, hg, List.countP_cons, hp, ih]
    | some b =>
      have hp : p a = true := by rw [← h a, hg]; rfl
      simp [List.filterMap_cons, hg, List.countP_cons, hp, ih]

theorem fileDataRows_length (f : List String) :
    (fileDataRows f).length
      = f.enum.countP (fun q => decide (q.1 ≠ 0) && !(pyStrip q.2).data.isEmpty) := by
  unfold fileDataRows
  apply length_filterMap_eq_countP
  intro q
  by_cases h1 : q.1 = 0 <;> by_cases h2 : (pyStrip q.2).data.isEmpty <;> simp [h1, h2]

theorem allRows_length (bs : Nat) (files : List (List String)) :
    (allRows bs files).length
      = (files.map (fun f =>
          f.enum.countP (fun q => decide (q.1 ≠ 0) && !(pyStrip q.2).data.isEmpty))).sum := by
  rw [allRows_eq]
  induction files with
  | nil => rfl
  | cons f fs ih =>
    simp only [List.foldr_cons, List.length_append, List.map_cons, List.sum_cons,
      fileDataRows_length, ih]

theorem dbGo_eq (bs : Nat) (ls : List String) :
    ∀ batch db, dbGo bs ls batch db = db ++ batch ++ ls.filterMap lineToRow? := by
  induction ls with
  | nil => intro batch db; simp [dbGo]
  | cons l rest ih =>
    intro batch db
    cases h : lineToRow? l with
    | none => simp [dbGo, h, ih]
    | some r =>
      simp only [dbGo, h]
      split
      · rw [ih]
        simp [List.filterMap_cons, h]
      · rw [ih]
        simp [List.filterMap_cons, h]

theorem create_sqlite_db_eq (bs : Nat) (fileLines : List String) :
    create_sqlite_db bs fileLines = (fileLines.drop 1).filterMap lineToRow? := by
  cases fileLines with
  | nil => rfl
  | cons x rest =>
    show dbGo bs rest [] [] = List.filterMap lineToRow? (List.drop 1 (x :: rest))
    rw [dbGo_eq]
    simp

theorem rowFields_rowOfParts_five {parts : List String} (h : parts.length = 5) :
    rowFields (rowOfParts parts) = parts := by
  match parts, h with
  | [a, b, c, d, e], _ => rfl

theorem rowFields_rowOfParts_pad {parts : List String} (h : parts.length ≤ 5) :
    rowFields (rowOfParts parts) = parts ++ List.replicate (5 - parts.length) "" := by
  match parts with
  | [] => rfl
  | [a] => rfl
  | [a, b] => rfl
  | [a, b, c] => rfl
  | [a, b, c, d] => rfl
  | [a, b, c, d, e] => rfl
  | a :: b :: c :: d :: e :: f :: t => simp at h

/-! ## Helper lemmas: unfolding the validator at a well-formed input -/

theorem validate_pipe_file_spec (raw : List String) (header : String) (rest : List String)
    (hc : cleanedLines raw = header :: rest) (h2 : 2 ≤ (cleanedLines raw).length) :
    (validate_pipe_file raw).ok = true
    ∧ (collectErrors (numFields header) rest = [] →
        (validate_pipe_file raw).outLines = raw
          ∧ (validate_pipe_file raw).quarantine = none)
    ∧ (collectErrors (numFields header) rest ≠ [] →
        (validate_pipe_file raw).outLines
            = header :: rest.filter (fun x => numFields x == numFields header)
          ∧ (validate_pipe_file raw).quarantine
            = some (quarantineHeader :: (collectErrors (numFields header) rest).map qLine)) := by
  have hlt : ¬ (cleanedLines raw).length < 2 := by omega
  have hfold :
      ((collectErrors (numFields header) rest).map (fun e => e.1)).reverse.foldl
          (fun ls i => ls.eraseIdx (i - 1)) (header :: rest)
        = header :: rest.filter (fun x => numFields x == numFields header) := by
    rw [List.foldl_reverse, collectErrors_eq_collectFrom, collectFrom_map_fst]
    have h := foldr_eraseIdx_mismatch (numFields header) rest [header]
    simpa using h
  by_cases herr : collectErrors (numFields header) rest = []
  · have hres : validate_pipe_file raw
        = { ok := true, outLines := raw, quarantine := none } := by
      unfold validate_pipe_file
      rw [hc] at hlt ⊢
      rw [if_neg hlt]
      simp [herr]
    rw [hres]
    simp [herr]
  · have hres : validate_pipe_file raw
        = { ok := true
            outLines := header :: rest.filter (fun x => numFields x == numFields header)
            quarantine :=
              some (quarantineHeader :: (collectErrors (numFields header) rest).map qLine) } := by
      unfold validate_pipe_file
      rw [hc] at hlt ⊢
      rw [if_neg hlt]
      have hne : (collectErrors (numFields header) rest).isEmpty = false := by
        simpa [List.isEmpty_iff] using herr
      simp [hne, hfold]
    rw [hres]
    simp [herr]

/-! ## Helper lemmas: non-emptiness of the written dataset lines -/

theorem joinPipe_singleton (t : String) : joinPipe [t] = t := rfl

theorem joinPipe_splitTrim_strip_ne_nil {t : String} (hstr : pyStrip t = t)
    (hne : t.data ≠ []) :
    stripChars (joinPipe ((pySplit t).map pyStrip)).data ≠ [] := by
  cases hsp : splitOnChar '|' t.data with
  | nil => exact absurd hsp (splitOnChar_ne_nil '|' t.data)
  | cons a as =>
    cases as with
    | nil =>
      have ha : a = t.data := by
        have := splitOnChar_singleton '|' t.data a hsp
        exact this
      have hps : pySplit t = [t] := by
        unfold pySplit
        rw [hsp, ha]
        rfl
      rw [hps]
      have : joinPipe [pyStrip t] = t := by rw [hstr, joinPipe_singleton]
      simp only [List.map_cons, List.map_nil, this]
      have hts : stripChars t.data = t.data := by
        have := congrArg String.data hstr
        simpa [pyStrip] using this
      rw [hts]
      exact hne
    | cons b bs =>
      have hmem : '|' ∈ (joinPipe ((pySplit t).map pyStrip)).data := by
        unfold pySplit
        rw [hsp]
        simp only [List.map_cons, joinPipe]
        exact mem_joinChars_of_two '|' _ _ _
      exact stripChars_ne_nil_of_mem _ hmem (by decide)

theorem header_strip_ne_nil (files : List (List String)) :
    stripChars (joinPipe (resolveHeaders files)).data ≠ [] := by
  unfold resolveHeaders
  cases hfs : files.findSome? (fun f =>
    match f.head? with
    | none => none
    | some l =>
      let s := pyStrip l
      if s.data.isEmpty then none else some ((pySplit s).map pyStrip)) with
  | none => decide
  | some hs =>
    obtain ⟨f, _, hsome⟩ := List.exists_of_findSome?_eq_some hfs
    cases hh : f.head? with
    | none => rw [hh] at hsome; cases hsome
    | some l =>
      rw [hh] at hsome
      simp only at hsome
      by_cases hemp : (pyStrip l).data.isEmpty
      · rw [if_pos hemp] at hsome; cases hsome
      · rw [if_neg hemp] at hsome
        injection hsome with hsome
        subst hsome
        exact joinPipe_splitTrim_strip_ne_nil (pyStrip_idem l)
          (by simpa [List.isEmpty_iff] using hemp)

theorem row_strip_ne_nil {bs : Nat} {files : List (List String)} :
    ∀ r ∈ allRows bs files, stripChars (joinPipe r).data ≠ [] := by
  intro r hr
  obtain ⟨f, _, hrf⟩ := mem_allRows hr
  unfold fileDataRows at hrf
  obtain ⟨q, _, hq⟩ := List.mem_filterMap.mp hrf
  split at hq
  · rename_i hcond
    injection hq with hq
    subst hq
    exact joinPipe_splitTrim_strip_ne_nil (pyStrip_idem q.2)
      (by simpa [List.isEmpty_iff] using hcond.2)
  · cases hq

theorem cleanedLines_length_of_all {ls : List String}
    (h : ∀ x ∈ ls, stripChars x.data ≠ []) :
    (cleanedLines ls).length = ls.length := by
  unfold cleanedLines
  rw [List.filter_eq_self.mpr, List.length_map]
  intro y hy
  obtain ⟨x, hx, hxy⟩ := List.mem_map.mp hy
  subst hxy
  simpa [pyStrip, List.isEmpty_iff] using h x hx

theorem cleanedLines_unified_length (bs : Nat) (files : List (List String)) :
    (cleanedLines (unifiedLines bs files)).length = 1 + (allRows bs files).length := by
  rw [cleanedLines_length_of_all]
  · simp [unifiedLines]
    omega
  · intro x hx
    unfold unifiedLines at hx
    rcases List.mem_cons.mp hx with h1 | h1
    · subst h1
      exact header_strip_ne_nil files
    · obtain ⟨r, hr, hrx⟩ := List.mem_map.mp h1
      subst hrx
      exact row_strip_ne_nil r hr

/-! ## Helper lemmas: link discovery and filename derivation -/

theorem scheme_of_valid {u : String} (h : is_valid_url u = true) :
    lowerStr (parseUrl u).scheme = "http" ∨ lowerStr (parseUrl u).scheme = "https" := by
  unfold is_valid_url at h
  simp only [Bool.and_eq_true, Bool.or_eq_true, beq_iff_eq] at h
  exact h.2

theorem find_zip_urls_filter (pageUrl : String) (hrefs : List String)
    (h : is_valid_url pageUrl = true) :
    find_zip_urls pageUrl hrefs
      = ((hrefs.filter isZipHref).map (urljoin pageUrl)).filter is_valid_url := by
  unfold find_zip_urls
  rw [if_pos h]
  induction hrefs with
  | nil => rfl
  | cons a as ih =>
    by_cases hz : isZipHref a
    · by_cases hv : is_valid_url (urljoin pageUrl a)
      · simp [List.filterMap_cons, List.filter_cons, hz, hv, ih]
      · simp [List.filterMap_cons, List.filter_cons, hz, hv, ih]
    · simp [List.filterMap_cons, List.filter_cons, hz, ih]

theorem mem_find_zip_urls_valid {pageUrl : String} {hrefs : List String} {u : String}
    (h : is_valid_url pageUrl = true) (hm : u ∈ find_zip_urls pageUrl hrefs) :
    is_valid_url u = true := by
  rw [find_zip_urls_filter pageUrl hrefs h] at hm
  exact (List.mem_filter.mp hm).2

theorem segMatch_some {seg : List Char} {m : String} (h : segMatch seg = some m) :
    ∃ k, matchAt seg k = true ∧ m = ⟨seg.take (k + 4)⟩ := by
  unfold segMatch at h
  have h' : (match (((List.range seg.length).filter (fun k => matchAt seg k)).filter
      (fun k => decide (1 ≤ k))).getLast? with
    | some k => some (⟨seg.take (k + 4)⟩ : String)
    | none => none) = some m := h
  clear h
  cases hl : (((List.range seg.length).filter (fun k => matchAt seg k)).filter
      (fun k => decide (1 ≤ k))).getLast? with
  | none => rw [hl] at h'; cases h'
  | some k =>
    rw [hl] at h'
    injection h' with h
    refine ⟨k, ?_, h.symm⟩
    have hmem : k ∈ ((List.range seg.length).filter (fun k => matchAt seg k)).filter
        (fun k => decide (1 ≤ k)) := by
      obtain ⟨hne, heq⟩ := List.mem_getLast?_eq_getLast (x := k) hl
      subst heq
      exact List.getLast_mem hne
    have := List.mem_of_mem_filter hmem
    exact (List.mem_filter.mp this).2

theorem zipToken_suffix_of_matchAt {seg : List Char} {k : Nat} (h : matchAt seg k = true) :
    zipToken <:+ lowerChars (seg.take (k + 4)) := by
  unfold matchAt at h
  have heq : List.map Char.toLower (List.take 4 (List.drop k seg)) = zipToken :=
    of_decide_eq_true h
  rw [List.take_add]
  unfold lowerChars
  rw [List.map_append, heq]
  exact List.suffix_append _ _

theorem isSuffixOf_to_suffix {a b : List Char} (h : a.isSuffixOf b = true) : a <:+ b := by
  rw [List.isSuffixOf] at h
  exact List.reverse_prefix.mp (List.isPrefixOf_iff_prefix.mp h)

theorem get_filename_suffix (url : String) :
    zipToken <:+ lowerChars (get_filename_from_url url).data := by
  unfold get_filename_from_url
  cases hz : zipSearch url with
  | some m =>
    unfold zipSearch at hz
    obtain ⟨seg, _, hseg⟩ := List.exists_of_findSome?_eq_some hz
    obtain ⟨k, hk, hm⟩ := segMatch_some hseg
    subst hm
    exact zipToken_suffix_of_matchAt hk
  | none =>
    simp only
    by_cases hsuf : ".zip".data.isSuffixOf (pathName (parseUrl url).path).data
    · rw [if_pos hsuf]
      have hs : ".zip".data <:+ (pathName (parseUrl url).path).data :=
        isSuffixOf_to_suffix hsuf
      have hlen : 4 ≤ (pathName (parseUrl url).path).data.length := hs.length_le
      have hne : (!(pathName (parseUrl url).path).data.isEmpty) = true := by
        cases hcase : (pathName (parseUrl url).path).data with
        | nil => rw [hcase] at hlen; simp at hlen
        | cons c cs => rfl
      rw [if_pos hne]
      have := hs.map Char.toLower
      exact this
    · rw [if_neg hsuf]
      have hne : (!((pathName (parseUrl url).path).data ++ ".zip".data).isEmpty) = true := by
        simp
      rw [if_pos hne]
      show zipToken <:+ lowerChars ((pathName (parseUrl url).path).data ++ ".zip".data)
      unfold lowerChars
      rw [List.map_append]
      exact List.suffix_append _ _

theorem get_filename_empty_path {url : String} (hz : zipSearch url = none)
    (hp : (parseUrl url).path = "") : get_filename_from_url url = ".zip" := by
  unfold get_filename_from_url
  rw [hz, hp]
  rfl

theorem count_eq_one_of_nodup_mem {α : Type} [BEq α] [LawfulBEq α] {l : List α} {e : α}
    (h : l.Nodup) (he : e ∈ l) : l.count e = 1 := by
  induction l with
  | nil => cases he
  | cons x xs ih =>
    rw [List.count_cons]
    rcases List.mem_cons.mp he with h1 | h1
    · subst h1
      rw [List.count_eq_zero.mpr (List.nodup_cons.mp h).1]
      simp
    · have hne : e ≠ x := by
        intro heq; subst heq; exact (List.nodup_cons.mp h).1 h1
      rw [ih (List.nodup_cons.mp h).2 h1]
      simp [Ne.symm hne]

theorem rowOfParts_take_five (parts : List String) :
    rowOfParts (parts.take 5) = rowOfParts parts := by
  have hg : ∀ i, i < 5 → (parts.take 5).getD i "" = parts.getD i "" := by
    intro i hi
    rw [List.getD_eq_getElem?_getD, List.getD_eq_getElem?_getD, List.getElem?_take,
      if_pos hi]
  unfold rowOfParts
  rw [hg 0 (by omega), hg 1 (by omega), hg 2 (by omega), hg 3 (by omega), hg 4 (by omega)]

theorem filterMap_lineToRow_map (ls : List String)
    (hall : ∀ l ∈ ls,
      !(pyStrip l).data.isEmpty ∧ ((pySplit (pyStrip l)).map pyStrip).length = 5) :
    (ls.filterMap lineToRow?).map rowFields
      = ls.map (fun l => (pySplit (pyStrip l)).map pyStrip) := by
  induction ls with
  | nil => rfl
  | cons l rest ih =>
    have h1 := hall l (List.mem_cons_self _ _)
    have hemp : (pyStrip l).data.isEmpty = false := by simpa using h1.1
    have hrow : lineToRow? l = some (rowOfParts ((pySplit (pyStrip l)).map pyStrip)) := by
      unfold lineToRow?
      rw [if_neg (by simp [hemp])]
    rw [List.filterMap_cons, hrow]
    simp only [List.map_cons]
    rw [ih (fun y hy => hall y (List.mem_cons_of_mem _ hy)),
      rowFields_rowOfParts_five h1.2]

/-! ## Claim theorems -/

/-- C2: the merge skips the first line of every flat file as that file's
header and writes one row for each further non-empty line, split on the
pipe with every field trimmed, independently of the write batch size; so
the data-row count of the unified dataset equals the total number of
non-header, non-empty input lines over all files. -/
theorem c2_unify_rows (bs : Nat) (files : List (List String)) :
    allRows bs files = files.foldr (fun f acc => fileDataRows f ++ acc) []
    ∧ (allRows bs files).length
        = (files.map (fun f =>
            f.enum.countP (fun q => decide (q.1 ≠ 0) && !(pyStrip q.2).data.isEmpty))).sum
    ∧ (unifiedLines bs files).length = 1 + (allRows bs files).length := by
  refine ⟨allRows_eq bs files, allRows_length bs files, ?_⟩
  unfold unifiedLines
  rw [List.length_cons, List.length_map]
  omega

/-- C3: with no flat files found, or with zero data rows collected over
all files, unify_txt_files reports failure, deletes the temporary output
file when it had been created, and leaves the pre-existing final dataset
and the store untouched. -/
theorem c3_unify_failure (bs : Nat) (files : List (List String)) (st : PipeState)
    (h : files.isEmpty = true ∨ (allRows bs files).length = 0) :
    (unify_txt_files bs files st).1 = false
    ∧ (unify_txt_files bs files st).2.finalDataset = st.finalDataset
    ∧ (unify_txt_files bs files st).2.store = st.store
    ∧ (files.isEmpty = false → (unify_txt_files bs files st).2.tempExists = false) := by
  by_cases hf : files.isEmpty
  · simp [unify_txt_files, hf]
  · have hrows : (allRows bs files).length = 0 := by
      rcases h with h1 | h1
      · exact absurd h1 hf
      · exact h1
    simp [unify_txt_files, hf, hrows]

theorem c3_unify_failure_witness :
    (unify_txt_files 1000 ([] : List (List String))
        { finalDataset := some ["old"], store := some [], tempExists := true }).1 = false
    ∧ (unify_txt_files 1000 ([] : List (List String))
        { finalDataset := some ["old"], store := some [], tempExists := true }).2.finalDataset
      = some ["old"] := by
  have h := c3_unify_failure 1000 ([] : List (List String))
    { finalDataset := some ["old"], store := some [], tempExists := true }
    (Or.inl (by decide))
  exact ⟨h.1, h.2.1⟩

/-- C7: extract_zip deletes the source archive exactly when extraction
succeeds: on success every entry is extracted and the archive removed;
on a corrupt archive or any other extraction error it returns failure
with the archive left in place. -/
theorem c7_extract_zip (entries : List String) (err : Option ZipError) :
    ((extract_zip entries err).ok = true ↔ (extract_zip entries err).archivePresent = false)
    ∧ ((extract_zip entries err).ok = true → (extract_zip entries err).extracted = entries)
    ∧ (err = none → (extract_zip entries err).ok = true)
    ∧ (∀ e, err = some e → (extract_zip entries err).ok = false
        ∧ (extract_zip entries err).archivePresent = true) := by
  cases err <;> simp [extract_zip]

theorem c7_extract_zip_witness :
    (extract_zip ["a.txt"] (some ZipError.badZip)).ok = false
    ∧ (extract_zip ["a.txt"] (some ZipError.badZip)).archivePresent = true :=
  (c7_extract_zip ["a.txt"] (some ZipError.badZip)).2.2.2 ZipError.badZip rfl

/-- C8: the substring search is capped at 100 rows by the SQL statement
itself, independently of the caller limit; the /buscar endpoint then
returns at most min(limit, 100) formatted results. -/
theorem c8_search_limit (db : List ApiRow) (q : String) (limit : Nat) (h : 1 ≤ limit) :
    (search_razon_social db q).length ≤ 100
    ∧ resultCount (search db q limit) ≤ min limit 100 := by
  have h100 : (search_razon_social db q).length ≤ 100 := by
    unfold search_razon_social
    rw [List.length_take]
    exact Nat.min_le_left _ _
  refine ⟨h100, ?_⟩
  unfold search
  by_cases hbad : (pyIsDigitStr q && !is_valid_ruc_format q) = true
  · rw [if_pos hbad]
    exact Nat.zero_le _
  · rw [if_neg hbad]
    cases hr : search_ruc db q with
    | some r =>
      simp only [resultCount]
      exact le_min h (by omega)
    | none =>
      simp only
      by_cases hres : (search_razon_social db q).isEmpty
      · rw [if_pos hres]
        exact Nat.zero_le _
      · rw [if_neg hres]
        simp only [resultCount]
        rw [List.length_map, List.length_take]
        exact min_le_min (le_refl limit) h100

theorem c8_search_limit_witness :
    resultCount (search [ApiRow.mk "123" "Empresa" "4" "ACTIVO"] "123" 10) ≤ min 10 100 :=
  (c8_search_limit _ "123" 10 (by decide)).2

/-- C10: a data line with more than five fields contributes only the
fields at positions 0 through 4; the loader inserts the row built from
the first five fields and the rest never reach the store. -/
theorem c10_extra_fields (parts : List String) (h : 5 < parts.length) :
    rowOfParts parts = rowOfParts (parts.take 5)
    ∧ ∀ l : String, 5 < ((pySplit (pyStrip l)).map pyStrip).length →
        lineToRow? l = some (rowOfParts (((pySplit (pyStrip l)).map pyStrip).take 5)) := by
  refine ⟨(rowOfParts_take_five parts).symm, ?_⟩
  intro l hl
  have hne : (pyStrip l).data.isEmpty = false := by
    cases hcase : (pyStrip l).data.isEmpty
    · rfl
    · exfalso
      have h1 : (pyStrip l).data = [] := List.isEmpty_iff.mp hcase
      have h2 : ((pySplit (pyStrip l)).map pyStrip).length = 1 := by
        simp [pySplit, h1, splitOnChar]
      omega
  unfold lineToRow?
  rw [if_neg (by simp [hne]), rowOfParts_take_five]

theorem c10_extra_fields_witness :
    rowOfParts ["1", "A", "2", "0", "ACT", "X"]
      = rowOfParts (["1", "A", "2", "0", "ACT", "X"].take 5) :=
  (c10_extra_fields ["1", "A", "2", "0", "ACT", "X"] (by decide)).1

/-- C4: the loader skips the header line, inserts one row per non-empty
data line with the five text fields taken positionally from the split
line (missing trailing fields become the empty string), independently of
the batch size; reading the store back in insertion order reproduces the
split rows of a five-column dataset, and short rows come back padded
with empty strings. -/
theorem c4_loader_roundtrip (bs : Nat) (fileLines : List String) :
    create_sqlite_db bs fileLines = (fileLines.drop 1).filterMap lineToRow?
    ∧ ((∀ l ∈ fileLines.drop 1,
          !(pyStrip l).data.isEmpty ∧ ((pySplit (pyStrip l)).map pyStrip).length = 5) →
        (create_sqlite_db bs fileLines).map rowFields
          = (fileLines.drop 1).map (fun l => (pySplit (pyStrip l)).map pyStrip))
    ∧ (∀ parts : List String, parts.length ≤ 5 →
        rowFields (rowOfParts parts) = parts ++ List.replicate (5 - parts.length) "") := by
  refine ⟨create_sqlite_db_eq bs fileLines, ?_,
    fun parts hp => rowFields_rowOfParts_pad hp⟩
  intro hall
  rw [create_sqlite_db_eq]
  exact filterMap_lineToRow_map _ hall

theorem c4_loader_roundtrip_witness :
    (create_sqlite_db 1000
        ["ruc|razon_social|dv|ruc_anterior|estado", "1|A|1|0|activo"]).map rowFields
      = (["ruc|razon_social|dv|ruc_anterior|estado", "1|A|1|0|activo"].drop 1).map
          (fun l => (pySplit (pyStrip l)).map pyStrip) :=
  (c4_loader_roundtrip 1000 _).2.1 (by decide)

/-- C5: on a valid page URL, find_zip_urls returns, in document order,
exactly the hyperlink targets whose lowercased value ends with ".zip" or
contains ".zip/", each resolved against the page URL, restricted to the
resolutions that re-validate; every returned URL has scheme http or
https. -/
theorem c5_find_zip_urls (pageUrl : String) (hrefs : List String)
    (h : is_valid_url pageUrl = true) :
    find_zip_urls pageUrl hrefs
      = ((hrefs.filter isZipHref).map (urljoin pageUrl)).filter is_valid_url
    ∧ ∀ u ∈ find_zip_urls pageUrl hrefs,
        lowerStr (parseUrl u).scheme = "http" ∨ lowerStr (parseUrl u).scheme = "https" :=
  ⟨find_zip_urls_filter pageUrl hrefs h,
   fun _ hu => scheme_of_valid (mem_find_zip_urls_valid h hu)⟩

theorem c5_find_zip_urls_witness :
    find_zip_urls "http://example.com/page/" ["file1.zip", "path/to/file2.zip", "notazip.txt"]
      = (((["file1.zip", "path/to/file2.zip", "notazip.txt"].filter isZipHref).map
          (urljoin "http://example.com/page/")).filter is_valid_url)
    ∧ find_zip_urls "http://example.com/page/" ["file1.zip", "path/to/file2.zip", "notazip.txt"]
      = ["http://example.com/page/file1.zip", "http://example.com/page/path/to/file2.zip"] :=
  ⟨(c5_find_zip_urls "http://example.com/page/"
      ["file1.zip", "path/to/file2.zip", "notazip.txt"] (by decide)).1, by decide⟩

/-- C6 as stated is false: for a URL whose path is empty and whose text
holds no zip token, the returned name is ".zip" — the extension appended
to the empty final segment — and not the generic placeholder
"downloaded_file.zip", which is unreachable because the appended
extension makes the name non-empty before the emptiness guard runs. -/
theorem c6_filename_counterexample :
    (parseUrl "http://example.com").path = ""
    ∧ zipSearch "http://example.com" = none
    ∧ get_filename_from_url "http://example.com" = ".zip"
    ∧ get_filename_from_url "http://example.com" ≠ "downloaded_file.zip" := by
  refine ⟨rfl, by decide, by decide, by decide⟩

/-- C6 amended: the destination name is the first zip token of the URL
text when one exists; otherwise the final path segment with ".zip"
appended when absent, which for an empty path yields ".zip" rather than
any placeholder; in every case the result ends with ".zip" up to
character case. -/
theorem c6_filename_amended (url : String) :
    zipToken <:+ lowerChars (get_filename_from_url url).data
    ∧ (∀ m, zipSearch url = some m → get_filename_from_url url = m)
    ∧ (zipSearch url = none → (parseUrl url).path = "" →
        get_filename_from_url url = ".zip") := by
  refine ⟨get_filename_suffix url, ?_, fun hz hp => get_filename_empty_path hz hp⟩
  intro m hm
  unfold get_filename_from_url
  rw [hm]

theorem c6_filename_amended_witness :
    get_filename_from_url "http://example.com" = ".zip" :=
  (c6_filename_amended "http://example.com").2.2 (by decide) (by decide)

theorem two_le_of_validate_ok {raw : List String}
    (h : (validate_pipe_file raw).ok = true) : 2 ≤ (cleanedLines raw).length := by
  by_contra hlt
  have hvf : validate_pipe_file raw
      = { ok := false, outLines := raw, quarantine := none } := by
    unfold validate_pipe_file
    rw [if_pos (by omega)]
  rw [hvf] at h
  cases h

/-- C9: whenever unify_txt_files reaches validation it passes a dataset
with at least two non-empty lines (the written header plus one line per
collected row, and every written line strips non-empty), so the
fewer-than-two-lines failure branch of the validator is unreachable from
the pipeline and validation succeeds. -/
theorem c9_validation_input (bs : Nat) (files : List (List String))
    (h : (allRows bs files).length ≠ 0) :
    2 ≤ (cleanedLines (unifiedLines bs files)).length
    ∧ (validate_pipe_file (unifiedLines bs files)).ok = true := by
  have hlen := cleanedLines_unified_length bs files
  have h2 : 2 ≤ (cleanedLines (unifiedLines bs files)).length := by omega
  refine ⟨h2, ?_⟩
  cases hcl : cleanedLines (unifiedLines bs files) with
  | nil => rw [hcl] at h2; simp at h2
  | cons hd tl =>
    rw [hcl] at h2
    exact (validate_pipe_file_spec _ hd tl hcl (hcl ▸ h2)).1

theorem c9_validation_input_witness :
    2 ≤ (cleanedLines (unifiedLines 1000 [["ruc|dv", "1|2"]])).length
    ∧ (validate_pipe_file (unifiedLines 1000 [["ruc|dv", "1|2"]])).ok = true :=
  c9_validation_input 1000 [["ruc|dv", "1|2"]] (by decide)

/-- C1: when validation succeeds on a dataset whose non-empty stripped
lines are a header followed by data rows, the surviving file consists of
the header plus exactly the rows whose field count matches the header
(the descending deletions remove precisely the mismatching rows); the
quarantine file exists exactly when some row mismatches, and then holds
the fixed header plus one line per removed row with its 1-based position
among the read non-empty lines, its content with pipes escaped, and the
reason string built from the two column counts with the CANCELADO
annotation; the recorded positions are strictly increasing, each removed
row is recorded exactly once, and every mismatching row is recorded. -/
theorem c1_validator_invariant (raw : List String) (header : String) (rest : List String)
    (hc : cleanedLines raw = header :: rest)
    (hok : (validate_pipe_file raw).ok = true) :
    cleanedLines (validate_pipe_file raw).outLines
        = header :: rest.filter (fun x => numFields x == numFields header)
    ∧ (∀ l ∈ (cleanedLines (validate_pipe_file raw).outLines).drop 1,
        numFields l = numFields header)
    ∧ ((validate_pipe_file raw).quarantine
        = if collectErrors (numFields header) rest = [] then none
          else some (quarantineHeader :: (collectErrors (numFields header) rest).map qLine))
    ∧ (collectErrors (numFields header) rest).Pairwise (fun a b => a.1 < b.1)
    ∧ (∀ e ∈ collectErrors (numFields header) rest,
        rest.get? (e.1 - 2) = some e.2.1
        ∧ numFields e.2.1 ≠ numFields header
        ∧ e.2.2 = motivo (numFields header) e.2.1
        ∧ (collectErrors (numFields header) rest).count e = 1
        ∧ qLine e = toString e.1 ++ "|" ++ escPipe e.2.1 ++ "|" ++ e.2.2)
    ∧ (∀ i x, rest.get? i = some x → numFields x ≠ numFields header →
        (i + 2, x, motivo (numFields header) x) ∈ collectErrors (numFields header) rest) := by
  have h2 := two_le_of_validate_ok hok
  have spec := validate_pipe_file_spec raw header rest hc h2
  have hpw : (collectErrors (numFields header) rest).Pairwise (fun a b => a.1 < b.1) := by
    rw [collectErrors_eq_collectFrom]
    exact collectFrom_pairwise _ _ _
  have hnd : (collectErrors (numFields header) rest).Nodup := by
    rw [collectErrors_eq_collectFrom]
    exact collectFrom_nodup _ _ _
  have hfwd : ∀ e ∈ collectErrors (numFields header) rest,
      rest.get? (e.1 - 2) = some e.2.1
      ∧ numFields e.2.1 ≠ numFields header
      ∧ e.2.2 = motivo (numFields header) e.2.1
      ∧ (collectErrors (numFields header) rest).count e = 1
      ∧ qLine e = toString e.1 ++ "|" ++ escPipe e.2.1 ++ "|" ++ e.2.2 := by
    intro e he
    have he' : e ∈ collectFrom (numFields header) 2 rest := by
      rw [← collectErrors_eq_collectFrom]; exact he
    obtain ⟨_, hg, hmm, hmot⟩ := mem_collectFrom he'
    exact ⟨hg, hmm, hmot, count_eq_one_of_nodup_mem hnd he, rfl⟩
  have hbwd : ∀ i x, rest.get? i = some x → numFields x ≠ numFields header →
      (i + 2, x, motivo (numFields header) x) ∈ collectErrors (numFields header) rest := by
    intro i x hg hx
    rw [collectErrors_eq_collectFrom]
    have := collectFrom_of_get? (n := 2) hg hx
    simpa [Nat.add_comm] using this
  have hmain : cleanedLines (validate_pipe_file raw).outLines
      = header :: rest.filter (fun x => numFields x == numFields header) := by
    by_cases herr : collectErrors (numFields header) rest = []
    · obtain ⟨hout, _⟩ := spec.2.1 herr
      rw [hout, hc]
      have : rest.filter (fun x => numFields x == numFields header) = rest := by
        apply List.filter_eq_self.mpr
        intro x hx
        have hx2 : numFields x = numFields header := by
          apply collectFrom_nil_all (l := rest) (n := 2)
          · rw [← collectErrors_eq_collectFrom]; exact herr
          · exact hx
        simp [hx2]
      rw [this]
    · obtain ⟨hout, _⟩ := spec.2.2 herr
      rw [hout]
      apply cleanedLines_eq_self
      intro x hx
      have hxc : x ∈ cleanedLines raw := by
        rw [hc]
        rcases List.mem_cons.mp hx with h1 | h1
        · exact h1 ▸ List.mem_cons_self _ _
        · exact List.mem_cons_of_mem _ (List.mem_of_mem_filter h1)
      exact mem_cleanedLines hxc
  have hquar : (validate_pipe_file raw).quarantine
      = if collectErrors (numFields header) rest = [] then none
        else some (quarantineHeader :: (collectErrors (numFields header) rest).map qLine) := by
    by_cases herr : collectErrors (numFields header) rest = []
    · rw [if_pos herr]
      exact (spec.2.1 herr).2
    · rw [if_neg herr]
      exact (spec.2.2 herr).2
  refine ⟨hmain, ?_, hquar, hpw, hfwd, hbwd⟩
  intro l hl
  rw [hmain] at hl
  simp only [List.drop_one, List.tail_cons] at hl
  have := (List.mem_filter.mp hl).2
  simpa using this

theorem c1_validator_invariant_witness :
    cleanedLines (validate_pipe_file ["a|b", "c|d|e", "x|y"]).outLines
        = "a|b" :: ["c|d|e", "x|y"].filter (fun x => numFields x == numFields "a|b")
    ∧ (validate_pipe_file ["a|b", "c|d|e", "x|y"]).quarantine
        = if collectErrors (numFields "a|b") ["c|d|e", "x|y"] = [] then none
          else some (quarantineHeader
            :: (collectErrors (numFields "a|b") ["c|d|e", "x|y"]).map qLine) := by
  have h := c1_validator_invariant ["a|b", "c|d|e", "x|y"] "a|b" ["c|d|e", "x|y"]
    (by decide) (by decide)
  exact ⟨h.1, h.2.2.1⟩

end RucDnit
